import Mathlib

/-!
Shallow embedding of `fire/completion.py` (shell tab-completion script
generation for Fire CLIs) and proofs about it.

Python strings are Lean `String`s; the per-character operations the source
uses (`str.replace('_', '-')`, `str.startswith(p)`, `'-'.join`, `sorted`)
are embedded as explicit character-list functions so that everything
evaluates inside the kernel.

Python objects appearing as CLI components are embedded as nodes of an
explicit object graph `Graph := Nat → Node`, so that reference cycles are
representable.  A `Node` records exactly the observations the source makes
of a Python value: its introspection kind (routine / class / dict /
sequence / generator / module / `__future__` feature sentinel / other),
its argument names, its member list (with node ids as edges), its class
attribute classification and its length.
-/

namespace FireCompletion

/-- `p.data.isPrefixOf s.data`: embedding of Python `s.startswith(p)`. -/
def strStartsWith (s p : String) : Bool :=
  p.data.isPrefixOf s.data

/-- Embedding of Python `s.replace('_', '-')`: the pattern is a single
character, so the replacement is a character map. -/
def replaceUnderscores (s : String) : String :=
  String.mk (s.data.map (fun c => if c = '_' then '-' else c))

/-- A member name as seen by the source: either a Python `str`, or a
non-string key (e.g. a non-string dict key); for the latter we record the
`str(token)` rendering, which is all `_FormatForCommand` observes of it. -/
inductive MName where
  | str (s : String)
  | other (repr : String)
  deriving DecidableEq, Repr

/-- Introspection kind of a Python value, as distinguished by the source's
`inspect.isroutine` / `inspect.isclass` / `isinstance(·, dict)` /
`isinstance(·, (tuple, list))` / `inspect.isgenerator` /
`inspect.ismodule` / `isinstance(·, type(absolute_import))` tests. -/
inductive Kind where
  | routine
  | classLike
  | plainObj
  | dictObj
  | sequence
  | generator
  | feature
  | module
  | scalar
  deriving DecidableEq, Repr

/-- The classification of one class attribute, as returned by the external
class-attribute classifier: the source reads `class_attr.kind` (a string)
and tests `isinstance(class_attr.object, tuplegetter)`. -/
structure ClassAttr where
  kind : String
  isTuplegetter : Bool
  deriving DecidableEq, Repr

/-- One Python value, as observed by the source.  `members` is the list
`inspect.getmembers(·)` returns (sorted by name) — or, for a `dictObj`,
the list `items()` returns; edges are node ids into the ambient graph.
`args` is the argument-name list of a routine or class (see
`GetFullArgSpec`), `classAttrs` the classifier's output for a class,
`seqLen` the length of a `sequence`. -/
structure Node where
  kind : Kind
  args : List String := []
  members : List (MName × Nat) := []
  classAttrs : List (String × ClassAttr) := []
  seqLen : Nat := 0
  deriving DecidableEq, Repr

/-- A Python object graph: node ids to nodes (cycles representable). -/
def Graph : Type := Nat → Node

/-- `modules_to_hide = []` from the source (the TODO-guarded denylist of
module objects; empty in the code). -/
def modules_to_hide : List Node := []

/-- First rule of `MemberVisible`:
`isinstance(name, str) and name.startswith('__')`. -/
def isDunderName (name : MName) : Bool :=
  match name with
  | MName.str s => strStartsWith s "__"
  | MName.other _ => false

/-- Association-list lookup with string keys (Python `dict.get`). -/
def lookupStr {α : Type} (m : List (String × α)) (k : String) : Option α :=
  match m with
  | [] => none
  | (k', v) :: t => if k' = k then some v else lookupStr t k

/-- Modelled from the spec: the external class-attribute classifier
`inspectutils.GetClassAttrsDict` (not under `src/`), "given a class,
returns a mapping from member name to a record holding at least
`{kind, underlyingObject}`".  A class node carries its classifier output;
for a non-class the classifier yields nothing. -/
def GetClassAttrsDict (component : Node) : Option (List (String × ClassAttr)) :=
  if component.kind = Kind.classLike then some component.classAttrs else none

/-- The final `isinstance(name, str) → not name.startswith('_')`
fallthrough of `MemberVisible` ("Default to including the member"). -/
def nameDefaultVisible (name : MName) : Bool :=
  match name with
  | MName.str s => !(strStartsWith s "_")
  | MName.other _ => true

/-- Embedding of `completion.MemberVisible`.  The source's three
`member is absolute_import / division / print_function` tests and the
`isinstance(member, type(absolute_import))` test collapse to the single
kind test `member.kind = feature`, since `type(absolute_import)` is the
`__future__._Feature` class of which those three sentinels are instances. -/
def MemberVisible (component : Node) (name : MName) (member : Node)
    (class_attrs : Option (List (String × ClassAttr)) := none)
    (verbose : Bool := false) : Bool :=
  if isDunderName name then false
  else if verbose then true
  else if member.kind = Kind.feature then false
  else if member.kind = Kind.module ∧ member ∈ modules_to_hide then false
  else if component.kind = Kind.classLike then
    -- If class_attrs has not been provided, compute it
    -- (`GetClassAttrsDict(component) or {}`).
    let ca : List (String × ClassAttr) :=
      match class_attrs with
      | some d => d
      | none => (GetClassAttrsDict component).getD []
    match name with
    | MName.str s =>
      match lookupStr ca s with
      | some class_attr =>
        if class_attr.kind = "method" ∨ class_attr.kind = "property" then false
        else if class_attr.isTuplegetter then false
        else nameDefaultVisible name
      | none => nameDefaultVisible name
    | MName.other _ => nameDefaultVisible name
  else nameDefaultVisible name

/-- Modelled from the spec: the external argument-spec resolver
`inspectutils.GetFullArgSpec` (not under `src/`), "given a callable/class,
returns its positional argument names and keyword-only argument names".
A routine/class node carries `spec.args + spec.kwonlyargs` as its `args`
field. -/
def GetFullArgSpecArgs (component : Node) : List String :=
  component.args

/-- Embedding of `completion.VisibleMembers`.  For a dict the source uses
`component.items()`, otherwise `inspect.getmembers(component)` (sorted by
name); both observations are stored in `Node.members`.  If `class_attrs`
is not provided it is computed via the classifier. -/
def VisibleMembers (g : Graph) (component : Node)
    (class_attrs : Option (List (String × ClassAttr)) := none)
    (verbose : Bool := false) : List (MName × Nat) :=
  let ca : Option (List (String × ClassAttr)) :=
    match class_attrs with
    | some d => some d
    | none => GetClassAttrsDict component
  component.members.filter (fun p => MemberVisible component p.1 (g p.2) ca verbose)

/-- Body of `completion._FormatForCommand` after the stringify step:
a token starting with `'_'` is returned unchanged, otherwise underscores
become hyphens. -/
def _FormatForCommandStr (token : String) : String :=
  if strStartsWith token "_" then token else replaceUnderscores token

/-- Embedding of `completion._FormatForCommand`: a non-string token is
first stringified (`token = str(token)`), then the string rules apply. -/
def _FormatForCommand (token : MName) : String :=
  match token with
  | MName.str s => _FormatForCommandStr s
  | MName.other r => _FormatForCommandStr r

/-- Embedding of `completion._CompletionsFromArgs`: the source's loop
appending `f'--{arg}'` for each `arg.replace('_', '-')`. -/
def _CompletionsFromArgs (fn_args : List String) : List String :=
  fn_args.foldl (fun completions arg => completions ++ ["--" ++ replaceUnderscores arg]) []

/-- Embedding of `completion.Completions`. -/
def Completions (g : Graph) (component : Node) (verbose : Bool := false) :
    List String :=
  if component.kind = Kind.routine ∨ component.kind = Kind.classLike then
    _CompletionsFromArgs (GetFullArgSpecArgs component)
  else if component.kind = Kind.sequence then
    (List.range component.seqLen).map (fun index => toString index)
  else if component.kind = Kind.generator then []
  else
    (VisibleMembers g component none verbose).map (fun p => _FormatForCommand p.1)

/-- The initial yields of `completion._Commands`: for a routine or class,
one single-token path per argument completion; nothing otherwise. -/
def commandsHead (g : Graph) (component : Node) : List (List String) :=
  if component.kind = Kind.routine ∨ component.kind = Kind.classLike then
    (Completions g component false).map (fun completion => [completion])
  else []

/-- The per-member yields of `completion._Commands` at recursion budget
`d`: the member's one-token path followed by its recursive extensions. -/
def memberCommands (g : Graph) (rec : Node → List (List String))
    (p : MName × Nat) : List (List String) :=
  [_FormatForCommand p.1] ::
    (rec (g p.2)).map (fun command => _FormatForCommand p.1 :: command)

/-- Embedding of `completion._Commands`: the generator is embedded as the
list of the tuples it yields, in yield order.  For a routine or class the
argument completions come first; a routine is a leaf; once `depth < 1`
(here: `depth = 0`) no members are traversed; otherwise each visible
member (with `class_attrs={}`) yields its one-token path followed by its
recursive extensions at `depth - 1`.  The source checks `isroutine` before
`depth < 1`; since a routine yields exactly its head at every depth, the
two checks commute and we branch on `depth` first. -/
def _Commands (g : Graph) (component : Node) : Nat → List (List String)
  | 0 => commandsHead g component
  | d + 1 =>
    if component.kind = Kind.routine then commandsHead g component
    else
      commandsHead g component ++
        (VisibleMembers g component (some []) false).flatMap
          (memberCommands g (fun m => _Commands g m d))

/-- Embedding of `completion._IsOption`: `arg.startswith('-')`. -/
def _IsOption (arg : String) : Bool :=
  strStartsWith arg "-"

/-- A Python `set` of strings is embedded as a duplicate-free list in
insertion order; `setAdd` is `set.add`.  Python's set iteration order is
unspecified; every property proved below is order-independent. -/
def setAdd (s : List String) (x : String) : List String :=
  if x ∈ s then s else s ++ [x]

/-- Lookup in a set-valued `collections.defaultdict`: an absent key reads
as the default-factory value.  (A real `defaultdict` also inserts the
default on read; the source never reads a key and then branches on key
presence, so reads are modelled as pure lookups.) -/
def mapGet (dflt : List String) (m : List (String × List String))
    (k : String) : List String :=
  (lookupStr m k).getD dflt

/-- `m[k].add(x)` on a set-valued `defaultdict` whose default factory
produces (a copy of) `dflt`. -/
def mapAdd (dflt : List String) (m : List (String × List String))
    (k x : String) : List (String × List String) :=
  match m with
  | [] => [(k, setAdd dflt x)]
  | (k', v) :: t =>
    if k' = k then (k', setAdd v x) :: t else (k', v) :: mapAdd dflt t k x

/-- `k in m`: key presence (only written keys are present). -/
def isKey (m : List (String × List String)) (k : String) : Bool :=
  (lookupStr m k).isSome

/-- The triple returned by `completion._GetMaps`. -/
structure Maps where
  global_options : List String
  options_map : List (String × List String)
  subcommands_map : List (String × List String)
  deriving DecidableEq, Repr

/-- `command[-2]` for a command of length ≥ 2. -/
def parentOf (cmd : List String) : String :=
  cmd.getD (cmd.length - 2) ""

/-- `_FormatForCommand(command[-1])` (tokens are strings here). -/
def tailOf (cmd : List String) : String :=
  _FormatForCommandStr (cmd.getD (cmd.length - 1) "")

/-- One iteration of the `for command in commands` loop of
`completion._GetMaps`. -/
def getMapsStep (name : String) (default_options : List String)
    (m : Maps) (command : List String) : Maps :=
  match command with
  | [] => m
  | [t] =>
    if _IsOption t then { m with global_options := setAdd m.global_options t }
    else { m with subcommands_map := mapAdd [] m.subcommands_map name t }
  | _ =>
    let subcommand := parentOf command
    let arg := tailOf command
    if _IsOption arg then
      { m with options_map :=
          (mapAdd default_options
            (mapAdd default_options m.options_map subcommand arg)
            (replaceUnderscores subcommand) arg) }
    else
      { m with subcommands_map :=
          (mapAdd [] (mapAdd [] m.subcommands_map subcommand arg)
            (replaceUnderscores subcommand) arg) }

/-- Embedding of `completion._GetMaps`: `global_options` starts as a copy
of `default_options`; `options_map` defaults unseen keys to a copy of
`default_options`, `subcommands_map` to the empty set. -/
def _GetMaps (name : String) (commands : List (List String))
    (default_options : List String) : Maps :=
  commands.foldl (getMapsStep name default_options)
    { global_options := default_options, options_map := [], subcommands_map := [] }

/-- All memberships and key presences of `a` carry over to `b` (the order
`getMapsStep` preserves; `dflt` is the options-map default factory). -/
def MapsLe (dflt : List String) (a b : Maps) : Prop :=
  (∀ x, x ∈ a.global_options → x ∈ b.global_options) ∧
  (∀ k x, x ∈ mapGet dflt a.options_map k → x ∈ mapGet dflt b.options_map k) ∧
  (∀ k x, x ∈ mapGet [] a.subcommands_map k → x ∈ mapGet [] b.subcommands_map k) ∧
  (∀ k, isKey a.options_map k = true → isKey b.options_map k = true) ∧
  (∀ k, isKey a.subcommands_map k = true → isKey b.subcommands_map k = true)

/-- The loop iteration for `cmd` writes key `k` of `options_map`:
`cmd` has length ≥ 2, its formatted tail is an option token, and `k` is
its parent or the hyphen-normalized parent. -/
def writesOptionsKey (cmd : List String) (k : String) : Prop :=
  2 ≤ cmd.length ∧ _IsOption (tailOf cmd) = true ∧
    (parentOf cmd = k ∨ replaceUnderscores (parentOf cmd) = k)

/-- The loop iteration for `cmd` writes key `k` of `subcommands_map`:
either a one-token command path under the root name, or a path of
length ≥ 2 whose formatted tail is a command token, keyed by the parent or
its hyphen-normalized form. -/
def writesSubcommandsKey (name : String) (cmd : List String) (k : String) : Prop :=
  (cmd.length = 1 ∧ _IsOption (cmd.getD 0 "") = false ∧ name = k) ∨
  (2 ≤ cmd.length ∧ _IsOption (tailOf cmd) = false ∧
    (parentOf cmd = k ∨ replaceUnderscores (parentOf cmd) = k))

instance (cmd : List String) (k : String) : Decidable (writesOptionsKey cmd k) := by
  unfold writesOptionsKey
  infer_instance

instance (name : String) (cmd : List String) (k : String) :
    Decidable (writesSubcommandsKey name cmd k) := by
  unfold writesSubcommandsKey
  infer_instance

/-- Python `sep.join(l)`. -/
def joinSep (sep : String) : List String → String
  | [] => ""
  | [s] => s
  | s :: t => s ++ sep ++ joinSep sep t

/-- Code-point lexicographic order on character lists: the order Python
`sorted` uses on strings. -/
def charListLe : List Char → List Char → Bool
  | [], _ => true
  | _ :: _, [] => false
  | a :: as, b :: bs => if a < b then true else if b < a then false else charListLe as bs

def strLeB (s t : String) : Bool :=
  charListLe s.data t.data

def insertSorted (x : String) : List String → List String
  | [] => [x]
  | y :: ys => if strLeB x y then x :: y :: ys else y :: insertSorted x ys

/-- Python `sorted` on a list of strings (insertion sort; stable,
code-point order). -/
def sortStrings : List String → List String
  | [] => []
  | x :: xs => insertSorted x (sortStrings xs)

/-- Python `set.union` on duplicate-free lists. -/
def listUnion (a b : List String) : List String :=
  a ++ b.filter (fun x => !(a.contains x))

/-- A Python `set(...)` materialized from an enumeration: duplicate-free,
in first-insertion order.  (CPython's set iteration order is unspecified;
all containment properties proved below are order-independent.) -/
def dedupList (l : List String) : List String :=
  l.foldl (fun acc x => if acc.contains x then acc else acc ++ [x]) []

/-- Python `s.replace(c, '')` for a single character `c`. -/
def removeChar (c : Char) (s : String) : String :=
  String.mk (s.data.filter (fun d => !(d = c)))

/-- `name.replace('/', '').replace('.', '').replace(',', '')`: the bash
completion-function identifier. -/
def identifierOf (s : String) : String :=
  removeChar ',' (removeChar '.' (removeChar '/' s))

/-- Python `s.lstrip('--')`: strips every leading character drawn from
the set `{'-'}`. -/
def lstripDashes (s : String) : String :=
  String.mk (s.data.dropWhile (fun c => c = '-'))

/-- A single-quote character as a string (for the fish templates). -/
def sq : String :=
  String.singleton (Char.ofNat 39)

/-- `sub` occurs as a contiguous run of `l`. -/
def listIsInfix (sub : List Char) : List Char → Bool
  | [] => sub.isEmpty
  | a :: t => sub.isPrefixOf (a :: t) || listIsInfix sub t

/-- Substring test (used to state the round-trip scenario). -/
def strContains (s sub : String) : Bool :=
  listIsInfix sub.data s.data

/-- Number of occurrences of `sub` as a contiguous run of the second
argument (occurrence starts counted; used to state that the round-trip
scenario's fish script holds exactly one directive line per flag). -/
def countSubAux (sub : List Char) : List Char → Nat
  | [] => 0
  | a :: t => (if sub.isPrefixOf (a :: t) then 1 else 0) + countSubAux sub t

def countSub (s sub : String) : Nat :=
  countSubAux sub.data s.data

/-- `opts_assignment_main_command_template` of `_BashScript` (note the
trailing space after the closing quote, as in the source). -/
def optsAssignmentMain (options : String) : String :=
  "\n      opts=\"" ++ options ++ " $\x7bGLOBAL_OPTIONS\x7d\" "

/-- `opts_assignment_subcommand_template` of `_BashScript`. -/
def optsAssignmentSub (options : String) : String :=
  "\n      if is_prev_global; then\n        opts=\"$\x7bGLOBAL_OPTIONS\x7d\"\n      else\n        opts=\"" ++
    options ++ " $\x7bGLOBAL_OPTIONS\x7d\"\n      fi"

/-- `lastcommand_check_template` of `_BashScript`. -/
def lastcommandCheck (command opts_assignment : String) : String :=
  "\n    " ++ command ++ ")\n      " ++ opts_assignment ++
    "\n      opts=$(filter_options $opts)\n    ;;"

/-- `check_wrapper` of `_BashScript`. -/
def checkWrapper (lastcommand_checks : String) : String :=
  "\n  case \"$\x7blastcommand\x7d\" in\n  " ++ lastcommand_checks ++ "\n  esac"

/-- `bash_completion_template` of `_BashScript`, with its format slots as
parameters (`{{`/`}}` are the literal braces of the generated bash). -/
def bashTemplate (name identifier default_options global_options checks command : String) :
    String :=
  "# bash completion support for " ++ name ++ "\n" ++
  "# DO NOT EDIT.\n" ++
  "# This script is autogenerated by fire/completion.py.\n\n" ++
  "_complete-" ++ identifier ++ "()\n" ++
  "\x7b\n" ++
  "  local cur prev opts lastcommand\n" ++
  "  COMPREPLY=()\n" ++
  "  prev=\"$\x7bCOMP_WORDS[COMP_CWORD-1]\x7d\"\n" ++
  "  cur=\"$\x7bCOMP_WORDS[COMP_CWORD]\x7d\"\n" ++
  "  lastcommand=$(get_lastcommand)\n\n" ++
  "  opts=\"" ++ default_options ++ "\"\n" ++
  "  GLOBAL_OPTIONS=\"" ++ global_options ++ "\"\n\n" ++
  checks ++ "\n\n" ++
  "  COMPREPLY=( $(compgen -W \"$\x7bopts\x7d\" -- $\x7bcur\x7d) )\n" ++
  "  return 0\n" ++
  "\x7d\n\n" ++
  "get_lastcommand()\n" ++
  "\x7b\n" ++
  "  local lastcommand i\n\n" ++
  "  lastcommand=\n" ++
  "  for ((i=0; i < $\x7b#COMP_WORDS[@]\x7d; ++i)); do\n" ++
  "    if [[ $\x7bCOMP_WORDS[i]\x7d != -* ]] && [[ -n $\x7bCOMP_WORDS[i]\x7d ]] && [[\n" ++
  "      $\x7bCOMP_WORDS[i]\x7d != $cur ]]; then\n" ++
  "      lastcommand=$\x7bCOMP_WORDS[i]\x7d\n" ++
  "    fi\n" ++
  "  done\n\n" ++
  "  echo $lastcommand\n" ++
  "\x7d\n\n" ++
  "filter_options()\n" ++
  "\x7b\n" ++
  "  local opts\n" ++
  "  opts=\"\"\n" ++
  "  for opt in \"$@\"\n" ++
  "  do\n" ++
  "    if ! option_already_entered $opt; then\n" ++
  "      opts=\"$opts $opt\"\n" ++
  "    fi\n" ++
  "  done\n\n" ++
  "  echo $opts\n" ++
  "\x7d\n\n" ++
  "option_already_entered()\n" ++
  "\x7b\n" ++
  "  local opt\n" ++
  "  for opt in $\x7bCOMP_WORDS[@]:0:$COMP_CWORD\x7d\n" ++
  "  do\n" ++
  "    if [ $1 == $opt ]; then\n" ++
  "      return 0\n" ++
  "    fi\n" ++
  "  done\n" ++
  "  return 1\n" ++
  "\x7d\n\n" ++
  "is_prev_global()\n" ++
  "\x7b\n" ++
  "  local opt\n" ++
  "  for opt in $GLOBAL_OPTIONS\n" ++
  "  do\n" ++
  "    if [ $opt == $prev ]; then\n" ++
  "      return 0\n" ++
  "    fi\n" ++
  "  done\n" ++
  "  return 1\n" ++
  "\x7d\n\n" ++
  "complete -F _complete-" ++ identifier ++ " " ++ command ++ "\n"

/-- Embedding of `completion._BashScript`.  The iteration order of the
Python set `commands_set` is unspecified; we fix first-insertion order
(root name, then `subcommands_map` keys, then `options_map` keys); the
properties proved about the output are order-independent. -/
def _BashScript (name : String) (commands : List (List String))
    (default_options : Option (List String) := none) : String :=
  let dflt := default_options.getD []
  let maps := _GetMaps name commands dflt
  let commands_set :=
    dedupList (name :: (maps.subcommands_map.map Prod.fst ++ maps.options_map.map Prod.fst))
  let lines := commands_set.map (fun command =>
    lastcommandCheck command
      ((if command = name then optsAssignmentMain else optsAssignmentSub)
        (joinSep " " (sortStrings
          (listUnion (mapGet dflt maps.options_map command)
            (mapGet [] maps.subcommands_map command))))))
  let checks := checkWrapper (joinSep "\n" lines)
  bashTemplate name (identifierOf name) (joinSep " " dflt)
    (joinSep " " maps.global_options) checks name

/-- The fixed header of `_FishScript` (`fish_source`), with its
`{global_options}` slot — filled by the final `.format` call, which only
touches this slot since the appended directives contain no braces. -/
def fishHeader (global_options : String) : String :=
  "function __fish_using_command\n" ++
  "    set cmd (commandline -opc)\n" ++
  "    for i in (seq (count $cmd) 1)\n" ++
  "        switch $cmd[$i]\n" ++
  "        case \"-*\"\n" ++
  "        case \"*\"\n" ++
  "            if [ $cmd[$i] = $argv[1] ]\n" ++
  "                return 0\n" ++
  "            else\n" ++
  "                return 1\n" ++
  "            end\n" ++
  "        end\n" ++
  "    end\n" ++
  "    return 1\n" ++
  "end\n\n" ++
  "function __option_entered_check\n" ++
  "    set cmd (commandline -opc)\n" ++
  "    for i in (seq (count $cmd))\n" ++
  "        switch $cmd[$i]\n" ++
  "        case \"-*\"\n" ++
  "            if [ $cmd[$i] = $argv[1] ]\n" ++
  "                return 1\n" ++
  "            end\n" ++
  "        end\n" ++
  "    end\n" ++
  "    return 0\n" ++
  "end\n\n" ++
  "function __is_prev_global\n" ++
  "    set cmd (commandline -opc)\n" ++
  "    set global_options " ++ global_options ++ "\n" ++
  "    set prev (count $cmd)\n\n" ++
  "    for opt in $global_options\n" ++
  "        if [ \"--$opt\" = $cmd[$prev] ]\n" ++
  "            echo $prev\n" ++
  "            return 0\n" ++
  "        end\n" ++
  "    end\n" ++
  "    return 1\n" ++
  "end\n\n"

/-- `subcommand_template` of `_FishScript`. -/
def fishSubcommandDirective (name command subcommand : String) : String :=
  "complete -c " ++ name ++ " -n " ++ sq ++ "__fish_using_command " ++
    command ++ sq ++ " -f -a " ++ subcommand ++ "\n"

/-- `flag_template` of `_FishScript`. -/
def fishFlagDirective (name command prev_global_check option : String) : String :=
  "complete -c " ++ name ++ " -n " ++ sq ++ "__fish_using_command " ++
    command ++ ";" ++ prev_global_check ++ " and __option_entered_check --" ++
    option ++ sq ++ " -l " ++ option ++ "\n"

/-- Embedding of `completion._FishScript`.  As for `_BashScript`, the
iteration orders of the Python sets involved are unspecified and fixed
here as first-insertion order; the properties proved are
order-independent. -/
def _FishScript (name : String) (commands : List (List String))
    (default_options : Option (List String) := none) : String :=
  let dflt := default_options.getD []
  let maps := _GetMaps name commands dflt
  let cmds :=
    dedupList (maps.subcommands_map.map Prod.fst ++ maps.options_map.map Prod.fst)
  let body := cmds.foldl (fun acc command =>
    let acc1 := (mapGet [] maps.subcommands_map command).foldl
      (fun a subcommand => a ++ fishSubcommandDirective name command subcommand) acc
    (listUnion (mapGet dflt maps.options_map command) maps.global_options).foldl
      (fun a option =>
        a ++ fishFlagDirective name command
          (if command = name then "" else " and __is_prev_global;")
          (lstripDashes option)) acc1) ""
  fishHeader
    (joinSep " " (maps.global_options.map (fun option => "\"" ++ option ++ "\""))) ++
    body

/-- Embedding of `completion.Script`: any shell other than `"fish"` falls
back to the bash generator; the component is enumerated at depth 3. -/
def Script (name : String) (g : Graph) (component : Node)
    (default_options : Option (List String) := none)
    (shell : String := "bash") : String :=
  if shell = "fish" then _FishScript name (_Commands g component 3) default_options
  else _BashScript name (_Commands g component 3) default_options

/-- The round-trip scenario's component: an object exposing methods
`run(verbose)` (node 1) and `stop()` (node 2); `inspect.getmembers`
returns them sorted by name. -/
def mytoolComponent : Node :=
  { kind := Kind.plainObj, members := [(MName.str "run", 1), (MName.str "stop", 2)] }

def mytoolGraph : Graph := fun i =>
  match i with
  | 1 => { kind := Kind.routine, args := ["verbose"] }
  | 2 => { kind := Kind.routine }
  | _ => mytoolComponent

/-- The `run)` case branch the round-trip scenario expects in the bash
script: options are the sorted union `"--quiet --verbose"`. -/
def bashRunBranch : String :=
  "\n    run)\n      \n      if is_prev_global; then\n        opts=\"$\x7bGLOBAL_OPTIONS\x7d\"\n      else\n        opts=\"--quiet --verbose $\x7bGLOBAL_OPTIONS\x7d\"\n      fi\n      opts=$(filter_options $opts)\n    ;;"

/-- The fish directive line for `--quiet` conditioned on command `run`. -/
def fishRunQuietLine : String :=
  "complete -c mytool -n " ++ sq ++
    "__fish_using_command run; and __is_prev_global; and __option_entered_check --quiet" ++
    sq ++ " -l quiet"

/-- The fish directive line for `--verbose` conditioned on command
`run`. -/
def fishRunVerboseLine : String :=
  "complete -c mytool -n " ++ sq ++
    "__fish_using_command run; and __is_prev_global; and __option_entered_check --verbose" ++
    sq ++ " -l verbose"

/-- A yielded sequence is closed under immediate path-prefixes: every
occurrence of a path of length ≥ 2 is preceded (strictly earlier in the
sequence) by an occurrence of the path without its last token. -/
def PrefClosed (L : List (List String)) : Prop :=
  ∀ l1 p l2, L = l1 ++ p :: l2 → 2 ≤ p.length → p.dropLast ∈ l1

end FireCompletion

open FireCompletion

/-- C5: a name that is a string beginning with `'__'` is never visible,
for every container, member value, class-attrs argument and verbose flag
(including `verbose = true`). -/
theorem c5_dunder_never_visible (component : Node) (member : Node)
    (class_attrs : Option (List (String × ClassAttr))) (verbose : Bool)
    (s : String) (h : strStartsWith s "__" = true) :
    MemberVisible component (MName.str s) member class_attrs verbose = false := by
  simp [MemberVisible, isDunderName, h]

/-- Witness for C5 at a concrete input: `"__init__"` on a plain object. -/
theorem c5_dunder_never_visible_witness :
    strStartsWith "__init__" "__" = true ∧
    MemberVisible { kind := Kind.plainObj } (MName.str "__init__")
      { kind := Kind.routine } none true = false :=
  ⟨by decide, c5_dunder_never_visible { kind := Kind.plainObj }
    { kind := Kind.routine } none true "__init__" (by decide)⟩

/-- Membership in `commandsHead` forces a one-token path. -/
theorem length_of_mem_commandsHead {g : Graph} {c : Node} {p : List String}
    (hp : p ∈ commandsHead g c) : p.length = 1 := by
  unfold commandsHead at hp
  split at hp
  · obtain ⟨s, -, rfl⟩ := List.mem_map.mp hp
    rfl
  · simp at hp

/-- At depth 0 the enumerator yields exactly its head. -/
theorem _Commands_zero (g : Graph) (c : Node) :
    _Commands g c 0 = commandsHead g c := rfl

/-- Unfolding of the enumerator at a positive depth for a non-routine. -/
theorem _Commands_succ (g : Graph) (c : Node) (d : Nat)
    (hr : ¬ c.kind = Kind.routine) :
    _Commands g c (d + 1) =
      commandsHead g c ++
        (VisibleMembers g c (some []) false).flatMap
          (memberCommands g (fun m => _Commands g m d)) := by
  rw [_Commands, if_neg hr]

/-- For a routine the enumerator yields exactly its head. -/
theorem _Commands_routine (g : Graph) (c : Node) (d : Nat)
    (hr : c.kind = Kind.routine) :
    _Commands g c d = commandsHead g c := by
  cases d with
  | zero => rfl
  | succ d => rw [_Commands, if_pos hr]

/-- C4, counterexample: a module object member named `"mymod"` on a plain
(non-class) container with `verbose = false` IS visible — the source's
`modules_to_hide` denylist is empty, so the `inspect.ismodule` branch never
fires and the final name rule returns `True`.  This refutes the claim that
module objects are never visible. -/
theorem c4_module_member_counterexample :
    MemberVisible { kind := Kind.plainObj } (MName.str "mymod")
      { kind := Kind.module } none false = true := by
  decide

/-- C4 amended: with `verbose = false`, a language feature-flag sentinel
member (an instance of `type(absolute_import)`, covering
`absolute_import` / `division` / `print_function`) is never visible; module
objects are only hidden when they occur in the `modules_to_hide` list,
which is empty in the code, so module objects are not hidden by this
rule. -/
theorem c4_feature_sentinel_never_visible (component : Node) (name : MName)
    (member : Node) (class_attrs : Option (List (String × ClassAttr)))
    (h : member.kind = Kind.feature) :
    MemberVisible component name member class_attrs false = false := by
  unfold MemberVisible
  cases hd : isDunderName name <;> simp [hd, h]

/-- Witness for the amended C4 at a concrete input: the
`absolute_import`-style sentinel under the name `"absolute-import"`. -/
theorem c4_feature_sentinel_never_visible_witness :
    (Node.kind { kind := Kind.feature } = Kind.feature) ∧
    MemberVisible { kind := Kind.plainObj } (MName.str "absolute_import")
      { kind := Kind.feature } none false = false :=
  ⟨rfl, c4_feature_sentinel_never_visible { kind := Kind.plainObj }
    (MName.str "absolute_import") { kind := Kind.feature } none rfl⟩

/-- C6: with `depth = 0`, the enumeration of a routine or class yields
only one-token paths (the option paths for its argument names), and the
enumeration of a component that is neither a routine nor a class yields
nothing at all. -/
theorem c6_depth_zero_bound (g : Graph) (c : Node) :
    ((c.kind = Kind.routine ∨ c.kind = Kind.classLike) →
      ∀ p ∈ _Commands g c 0, p.length = 1) ∧
    (¬ (c.kind = Kind.routine ∨ c.kind = Kind.classLike) →
      _Commands g c 0 = []) := by
  constructor
  · intro _ p hp
    rw [_Commands_zero] at hp
    exact length_of_mem_commandsHead hp
  · intro hk
    rw [_Commands_zero]
    unfold commandsHead
    rw [if_neg hk]

/-- Witness for C6 at concrete inputs: a routine with two arguments, and
a scalar. -/
theorem c6_depth_zero_bound_witness :
    (["--verbose"] ∈
      _Commands (fun _ => { kind := Kind.scalar })
        { kind := Kind.routine, args := ["verbose", "count"] } 0 ∧
      List.length ["--verbose"] = 1) ∧
    _Commands (fun _ => { kind := Kind.scalar }) { kind := Kind.scalar } 0 = [] :=
  ⟨⟨by decide,
    (c6_depth_zero_bound (fun _ => { kind := Kind.scalar })
      { kind := Kind.routine, args := ["verbose", "count"] }).1
      (Or.inl rfl) ["--verbose"] (by decide)⟩,
   (c6_depth_zero_bound (fun _ => { kind := Kind.scalar })
      { kind := Kind.scalar }).2 (by decide)⟩

/-- C9: the enumerator is a total function returning a (finite) list for
every graph — cyclic graphs included, since a `Graph` is an arbitrary
function `Nat → Node` — and every yielded path has length at most
`depth + 1`: the recursion budget strictly decreases on every descent. -/
theorem c9_depth_bounds_enumeration (g : Graph) (depth : Nat) :
    ∀ (c : Node) (p : List String), p ∈ _Commands g c depth →
      p.length ≤ depth + 1 := by
  induction depth with
  | zero =>
    intro c p hp
    rw [_Commands_zero] at hp
    exact le_of_eq (length_of_mem_commandsHead hp)
  | succ d ih =>
    intro c p hp
    by_cases hr : c.kind = Kind.routine
    · rw [_Commands_routine g c (d + 1) hr] at hp
      exact le_trans (le_of_eq (length_of_mem_commandsHead hp)) (by omega)
    · rw [_Commands_succ g c d hr] at hp
      rcases List.mem_append.mp hp with h | h
      · exact le_trans (le_of_eq (length_of_mem_commandsHead h)) (by omega)
      · obtain ⟨q, -, hmem⟩ := List.mem_flatMap.mp h
        unfold memberCommands at hmem
        rcases List.mem_cons.mp hmem with rfl | hmem'
        · simp
        · obtain ⟨cmd, hcmd, rfl⟩ := List.mem_map.mp hmem'
          have := ih (g q.2) cmd hcmd
          simp only [List.length_cons]
          omega

/-- Witness for C9 at a concrete cyclic graph: node 0 has itself as its
only member, and enumeration still terminates with bounded paths. -/
theorem c9_depth_bounds_enumeration_witness :
    (["self", "self"] ∈
      _Commands (fun _ => { kind := Kind.plainObj, members := [(MName.str "self", 0)] })
        { kind := Kind.plainObj, members := [(MName.str "self", 0)] } 2) ∧
    List.length ["self", "self"] ≤ 2 + 1 :=
  ⟨by decide,
   c9_depth_bounds_enumeration
     (fun _ => { kind := Kind.plainObj, members := [(MName.str "self", 0)] }) 2
     { kind := Kind.plainObj, members := [(MName.str "self", 0)] }
     ["self", "self"] (by decide)⟩

/-- The source's append-loop in `_CompletionsFromArgs`, generalized over
its accumulator. -/
theorem completionsFromArgs_foldl (args : List String) (acc : List String) :
    args.foldl (fun completions arg => completions ++ ["--" ++ replaceUnderscores arg]) acc
      = acc ++ args.map (fun a => "--" ++ replaceUnderscores a) := by
  induction args generalizing acc with
  | nil => simp
  | cons a t ih => simp [ih]

/-- C8: `_FormatForCommand` stringifies non-string tokens, leaves a token
starting with `'_'` unchanged (so `"__init__"` maps to itself), and
otherwise replaces every underscore with a hyphen; and the completion for
every callable argument name is `"--"` prepended to the hyphenated name,
so `"my_arg"` yields `"--my-arg"`. -/
theorem c8_token_formatting :
    (∀ r : String, _FormatForCommand (MName.other r) = _FormatForCommandStr r) ∧
    (∀ s : String, strStartsWith s "_" = true → _FormatForCommandStr s = s) ∧
    (∀ s : String, strStartsWith s "_" = false →
      _FormatForCommandStr s = replaceUnderscores s) ∧
    _FormatForCommandStr "__init__" = "__init__" ∧
    (∀ args : List String,
      _CompletionsFromArgs args = args.map (fun a => "--" ++ replaceUnderscores a)) ∧
    _CompletionsFromArgs ["my_arg"] = ["--my-arg"] :=
  ⟨fun _ => rfl,
   fun s h => by simp [_FormatForCommandStr, h],
   fun s h => by simp [_FormatForCommandStr, h],
   by decide,
   fun args => by
     simpa using completionsFromArgs_foldl args [],
   by decide⟩

/-- Witness for C8 at concrete inputs, discharging the two conditional
parts at `"__init__"` and `"my_arg"`. -/
theorem c8_token_formatting_witness :
    (strStartsWith "__init__" "_" = true ∧ _FormatForCommandStr "__init__" = "__init__") ∧
    (strStartsWith "my_arg" "_" = false ∧ _FormatForCommandStr "my_arg" = "my-arg") :=
  ⟨⟨by decide, c8_token_formatting.2.1 "__init__" (by decide)⟩,
   ⟨by decide, by
      rw [c8_token_formatting.2.2.1 "my_arg" (by decide)]
      decide⟩⟩

/-- `set.add` puts its argument in the set. -/
theorem mem_setAdd_self (s : List String) (x : String) : x ∈ setAdd s x := by
  unfold setAdd
  split
  · assumption
  · simp

/-- `set.add` keeps existing elements. -/
theorem mem_setAdd_mono {s : List String} {y : String} (h : y ∈ s) (x : String) :
    y ∈ setAdd s x := by
  unfold setAdd
  split
  · exact h
  · exact List.mem_append_left _ h

/-- Looking up the key just written. -/
theorem lookupStr_mapAdd_self (d : List String) (m : List (String × List String))
    (k x : String) :
    lookupStr (mapAdd d m k x) k = some (setAdd (mapGet d m k) x) := by
  induction m with
  | nil => simp [mapAdd, lookupStr, mapGet]
  | cons h t ih =>
    obtain ⟨k', v⟩ := h
    by_cases hk : k' = k
    · simp [mapAdd, lookupStr, hk, mapGet]
    · simp [mapAdd, lookupStr, hk, ih, mapGet]

/-- Writing one key leaves the others' lookups unchanged. -/
theorem lookupStr_mapAdd_ne (d : List String) (m : List (String × List String))
    (k x k' : String) (h : ¬ k = k') :
    lookupStr (mapAdd d m k x) k' = lookupStr m k' := by
  induction m with
  | nil => simp [mapAdd, lookupStr, h]
  | cons hd t ih =>
    obtain ⟨k'', v⟩ := hd
    by_cases hk : k'' = k
    · subst hk
      simp [mapAdd, lookupStr, h]
    · by_cases hk2 : k'' = k' <;>
        simp [mapAdd, lookupStr, hk, hk2, ih, Ne.symm h]

/-- The element just added is in the looked-up set. -/
theorem mem_mapGet_mapAdd_self (d : List String) (m : List (String × List String))
    (k x : String) : x ∈ mapGet d (mapAdd d m k x) k := by
  unfold mapGet
  rw [lookupStr_mapAdd_self]
  exact mem_setAdd_self _ _

/-- `mapAdd` keeps every existing membership (same default factory). -/
theorem mem_mapGet_mapAdd_mono {d : List String} {m : List (String × List String)}
    {k' y : String} (h : y ∈ mapGet d m k') (k x : String) :
    y ∈ mapGet d (mapAdd d m k x) k' := by
  by_cases hk : k = k'
  · subst hk
    unfold mapGet
    rw [lookupStr_mapAdd_self]
    exact mem_setAdd_mono h x
  · unfold mapGet
    rw [lookupStr_mapAdd_ne _ _ _ _ _ hk]
    exact h

/-- The key just written is present. -/
theorem isKey_mapAdd_self (d : List String) (m : List (String × List String))
    (k x : String) : isKey (mapAdd d m k x) k = true := by
  unfold isKey
  rw [lookupStr_mapAdd_self]
  rfl

/-- `mapAdd` keeps every present key present. -/
theorem isKey_mapAdd_mono {m : List (String × List String)} {k' : String}
    (h : isKey m k' = true) (d : List String) (k x : String) :
    isKey (mapAdd d m k x) k' = true := by
  by_cases hk : k = k'
  · subst hk
    exact isKey_mapAdd_self d m k x
  · unfold isKey at h ⊢
    rw [lookupStr_mapAdd_ne _ _ _ _ _ hk]
    exact h

theorem mapsLe_refl (dflt : List String) (a : Maps) : MapsLe dflt a a :=
  ⟨fun _ h => h, fun _ _ h => h, fun _ _ h => h, fun _ h => h, fun _ h => h⟩

theorem mapsLe_trans {dflt : List String} {a b c : Maps}
    (h1 : MapsLe dflt a b) (h2 : MapsLe dflt b c) : MapsLe dflt a c :=
  ⟨fun x h => h2.1 x (h1.1 x h),
   fun k x h => h2.2.1 k x (h1.2.1 k x h),
   fun k x h => h2.2.2.1 k x (h1.2.2.1 k x h),
   fun k h => h2.2.2.2.1 k (h1.2.2.2.1 k h),
   fun k h => h2.2.2.2.2 k (h1.2.2.2.2 k h)⟩

/-- One loop iteration of `_GetMaps` only grows the three indexes. -/
theorem getMapsStep_le (name : String) (dflt : List String) (m : Maps)
    (cmd : List String) : MapsLe dflt m (getMapsStep name dflt m cmd) := by
  rcases cmd with _ | ⟨a, _ | ⟨b, rest⟩⟩
  · exact mapsLe_refl dflt m
  · simp only [getMapsStep]
    split
    · exact ⟨fun y h => mem_setAdd_mono h a, fun _ _ h => h, fun _ _ h => h,
        fun _ h => h, fun _ h => h⟩
    · exact ⟨fun _ h => h, fun _ _ h => h,
        fun k y h => mem_mapGet_mapAdd_mono h name a,
        fun _ h => h, fun k h => isKey_mapAdd_mono h [] name a⟩
  · simp only [getMapsStep]
    split
    · exact ⟨fun _ h => h,
        fun k y h => mem_mapGet_mapAdd_mono (mem_mapGet_mapAdd_mono h _ _) _ _,
        fun _ _ h => h,
        fun k h => isKey_mapAdd_mono (isKey_mapAdd_mono h dflt _ _) dflt _ _,
        fun _ h => h⟩
    · exact ⟨fun _ h => h, fun _ _ h => h,
        fun k y h => mem_mapGet_mapAdd_mono (mem_mapGet_mapAdd_mono h _ _) _ _,
        fun _ h => h,
        fun k h => isKey_mapAdd_mono (isKey_mapAdd_mono h [] _ _) [] _ _⟩

/-- The whole `_GetMaps` loop only grows the three indexes. -/
theorem foldl_getMapsStep_le (name : String) (dflt : List String) :
    ∀ (l : List (List String)) (m : Maps),
      MapsLe dflt m (l.foldl (getMapsStep name dflt) m) := by
  intro l
  induction l with
  | nil => intro m; exact mapsLe_refl dflt m
  | cons c t ih =>
    intro m
    exact mapsLe_trans (getMapsStep_le name dflt m c) (ih (getMapsStep name dflt m c))

/-- Processing a path of length ≥ 2 with an option tail writes the tail
into the options sets of the parent and its hyphen-normalized form, and
makes both keys present. -/
theorem getMapsStep_len2_option (name : String) (dflt : List String) (m : Maps)
    (cmd : List String) (hlen : 2 ≤ cmd.length)
    (hopt : _IsOption (tailOf cmd) = true) :
    tailOf cmd ∈ mapGet dflt (getMapsStep name dflt m cmd).options_map (parentOf cmd) ∧
    tailOf cmd ∈ mapGet dflt (getMapsStep name dflt m cmd).options_map
      (replaceUnderscores (parentOf cmd)) ∧
    isKey (getMapsStep name dflt m cmd).options_map (parentOf cmd) = true ∧
    isKey (getMapsStep name dflt m cmd).options_map
      (replaceUnderscores (parentOf cmd)) = true := by
  rcases cmd with _ | ⟨a, _ | ⟨b, rest⟩⟩
  · simp at hlen
  · simp at hlen
  · simp only [getMapsStep]
    rw [if_pos hopt]
    exact ⟨mem_mapGet_mapAdd_mono (mem_mapGet_mapAdd_self _ _ _ _) _ _,
      mem_mapGet_mapAdd_self _ _ _ _,
      isKey_mapAdd_mono (isKey_mapAdd_self _ _ _ _) dflt _ _,
      isKey_mapAdd_self _ _ _ _⟩

/-- Processing a path of length ≥ 2 with a command tail writes the tail
into the subcommand sets of the parent and its hyphen-normalized form,
and makes both keys present. -/
theorem getMapsStep_len2_command (name : String) (dflt : List String) (m : Maps)
    (cmd : List String) (hlen : 2 ≤ cmd.length)
    (hopt : _IsOption (tailOf cmd) = false) :
    tailOf cmd ∈ mapGet [] (getMapsStep name dflt m cmd).subcommands_map (parentOf cmd) ∧
    tailOf cmd ∈ mapGet [] (getMapsStep name dflt m cmd).subcommands_map
      (replaceUnderscores (parentOf cmd)) ∧
    isKey (getMapsStep name dflt m cmd).subcommands_map (parentOf cmd) = true ∧
    isKey (getMapsStep name dflt m cmd).subcommands_map
      (replaceUnderscores (parentOf cmd)) = true := by
  rcases cmd with _ | ⟨a, _ | ⟨b, rest⟩⟩
  · simp at hlen
  · simp at hlen
  · simp only [getMapsStep]
    rw [if_neg (by simp [hopt])]
    exact ⟨mem_mapGet_mapAdd_mono (mem_mapGet_mapAdd_self _ _ _ _) _ _,
      mem_mapGet_mapAdd_self _ _ _ _,
      isKey_mapAdd_mono (isKey_mapAdd_self _ _ _ _) [] _ _,
      isKey_mapAdd_self _ _ _ _⟩

/-- Processing a one-token option path adds it to the global options. -/
theorem getMapsStep_len1_option (name : String) (dflt : List String) (m : Maps)
    (t : String) (hopt : _IsOption t = true) :
    t ∈ (getMapsStep name dflt m [t]).global_options := by
  simp only [getMapsStep]
  rw [if_pos hopt]
  exact mem_setAdd_self _ _

/-- Processing a one-token command path adds it under the root name. -/
theorem getMapsStep_len1_command (name : String) (dflt : List String) (m : Maps)
    (t : String) (hopt : _IsOption t = false) :
    t ∈ mapGet [] (getMapsStep name dflt m [t]).subcommands_map name := by
  simp only [getMapsStep]
  rw [if_neg (by simp [hopt])]
  exact mem_mapGet_mapAdd_self _ _ _ _

/-- C2: for every processed command path of length ≥ 2, the formatted
tail lands in `options_map` (option tail) or `subcommands_map` (command
tail) both under the parent `path[-2]` and under its hyphen-normalized
form; for every path of length 1, an option token lands in
`global_options` and a command token in `subcommands_map[name]`. -/
theorem c2_index_builder_insertion (name : String) (commands : List (List String))
    (dflt : List String) (cmd : List String) (hmem : cmd ∈ commands) :
    (2 ≤ cmd.length → _IsOption (tailOf cmd) = true →
      tailOf cmd ∈ mapGet dflt (_GetMaps name commands dflt).options_map (parentOf cmd) ∧
      tailOf cmd ∈ mapGet dflt (_GetMaps name commands dflt).options_map
        (replaceUnderscores (parentOf cmd))) ∧
    (2 ≤ cmd.length → _IsOption (tailOf cmd) = false →
      tailOf cmd ∈ mapGet [] (_GetMaps name commands dflt).subcommands_map (parentOf cmd) ∧
      tailOf cmd ∈ mapGet [] (_GetMaps name commands dflt).subcommands_map
        (replaceUnderscores (parentOf cmd))) ∧
    (∀ t, cmd = [t] → _IsOption t = true →
      t ∈ (_GetMaps name commands dflt).global_options) ∧
    (∀ t, cmd = [t] → _IsOption t = false →
      t ∈ mapGet [] (_GetMaps name commands dflt).subcommands_map name) := by
  obtain ⟨l1, l2, rfl⟩ := List.append_of_mem hmem
  have hfold : _GetMaps name (l1 ++ cmd :: l2) dflt =
      l2.foldl (getMapsStep name dflt)
        (getMapsStep name dflt
          (l1.foldl (getMapsStep name dflt)
            { global_options := dflt, options_map := [], subcommands_map := [] }) cmd) := by
    unfold _GetMaps
    rw [List.foldl_append, List.foldl_cons]
  rw [hfold]
  have hle := foldl_getMapsStep_le name dflt l2
    (getMapsStep name dflt
      (l1.foldl (getMapsStep name dflt)
        { global_options := dflt, options_map := [], subcommands_map := [] }) cmd)
  refine ⟨?_, ?_, ?_, ?_⟩
  · intro hlen hopt
    have est := getMapsStep_len2_option name dflt
      (l1.foldl (getMapsStep name dflt)
        { global_options := dflt, options_map := [], subcommands_map := [] })
      cmd hlen hopt
    exact ⟨hle.2.1 _ _ est.1, hle.2.1 _ _ est.2.1⟩
  · intro hlen hopt
    have est := getMapsStep_len2_command name dflt
      (l1.foldl (getMapsStep name dflt)
        { global_options := dflt, options_map := [], subcommands_map := [] })
      cmd hlen hopt
    exact ⟨hle.2.2.1 _ _ est.1, hle.2.2.1 _ _ est.2.1⟩
  · intro t hcmd hopt
    subst hcmd
    exact hle.1 _ (getMapsStep_len1_option name dflt _ t hopt)
  · intro t hcmd hopt
    subst hcmd
    exact hle.2.2.1 _ _ (getMapsStep_len1_command name dflt _ t hopt)

/-- Witness for C2 on the round-trip example's command paths, at the
length-2 option path `["run", "--verbose"]`. -/
theorem c2_index_builder_insertion_witness :
    tailOf ["run", "--verbose"] ∈
      mapGet ["--quiet"]
        (_GetMaps "mytool" [["run"], ["run", "--verbose"], ["stop"]]
          ["--quiet"]).options_map
        (parentOf ["run", "--verbose"]) :=
  ((c2_index_builder_insertion "mytool" [["run"], ["run", "--verbose"], ["stop"]]
    ["--quiet"] ["run", "--verbose"] (by decide)).1 (by decide) (by decide)).1

/-- C3, counterexample: with input paths `[["a", "--x"], ["a", "b"]]` the
parent `"a"` of the option-tailed path `["a", "--x"]` is a key of BOTH
`options_map` and `subcommands_map`, so it is not a key of exactly one of
the two maps. -/
theorem c3_exactly_one_counterexample :
    isKey (_GetMaps "tool" [["a", "--x"], ["a", "b"]] []).options_map "a" = true ∧
    isKey (_GetMaps "tool" [["a", "--x"], ["a", "b"]] []).subcommands_map "a" = true := by
  decide

/-- C3 amended: the parent of every path of length ≥ 2 (and its
hyphen-normalized form) is a key of the map consistent with whether the
path's formatted terminal token is an option token; it may additionally
be a key of the other map when another path writes it there. -/
theorem c3_parent_key_consistent (name : String) (commands : List (List String))
    (dflt : List String) (cmd : List String) (hmem : cmd ∈ commands)
    (hlen : 2 ≤ cmd.length) :
    (_IsOption (tailOf cmd) = true →
      isKey (_GetMaps name commands dflt).options_map (parentOf cmd) = true ∧
      isKey (_GetMaps name commands dflt).options_map
        (replaceUnderscores (parentOf cmd)) = true) ∧
    (_IsOption (tailOf cmd) = false →
      isKey (_GetMaps name commands dflt).subcommands_map (parentOf cmd) = true ∧
      isKey (_GetMaps name commands dflt).subcommands_map
        (replaceUnderscores (parentOf cmd)) = true) := by
  obtain ⟨l1, l2, rfl⟩ := List.append_of_mem hmem
  have hfold : _GetMaps name (l1 ++ cmd :: l2) dflt =
      l2.foldl (getMapsStep name dflt)
        (getMapsStep name dflt
          (l1.foldl (getMapsStep name dflt)
            { global_options := dflt, options_map := [], subcommands_map := [] }) cmd) := by
    unfold _GetMaps
    rw [List.foldl_append, List.foldl_cons]
  rw [hfold]
  have hle := foldl_getMapsStep_le name dflt l2
    (getMapsStep name dflt
      (l1.foldl (getMapsStep name dflt)
        { global_options := dflt, options_map := [], subcommands_map := [] }) cmd)
  constructor
  · intro hopt
    have est := getMapsStep_len2_option name dflt
      (l1.foldl (getMapsStep name dflt)
        { global_options := dflt, options_map := [], subcommands_map := [] })
      cmd hlen hopt
    exact ⟨hle.2.2.2.1 _ est.2.2.1, hle.2.2.2.1 _ est.2.2.2⟩
  · intro hopt
    have est := getMapsStep_len2_command name dflt
      (l1.foldl (getMapsStep name dflt)
        { global_options := dflt, options_map := [], subcommands_map := [] })
      cmd hlen hopt
    exact ⟨hle.2.2.2.2 _ est.2.2.1, hle.2.2.2.2 _ est.2.2.2⟩

/-- Witness for the amended C3 at the counterexample's own input. -/
theorem c3_parent_key_consistent_witness :
    isKey (_GetMaps "tool" [["a", "--x"], ["a", "b"]] []).options_map
      (parentOf ["a", "--x"]) = true :=
  ((c3_parent_key_consistent "tool" [["a", "--x"], ["a", "b"]] [] ["a", "--x"]
    (by decide) (by decide)).1 (by decide)).1

/-- An iteration that does not write options key `k` leaves `k` absent. -/
theorem getMapsStep_options_not_written {cmd : List String} {k : String}
    (hw : ¬ writesOptionsKey cmd k) (name : String) (dflt : List String)
    (m : Maps) (h : lookupStr m.options_map k = none) :
    lookupStr (getMapsStep name dflt m cmd).options_map k = none := by
  rcases cmd with _ | ⟨a, _ | ⟨b, rest⟩⟩
  · exact h
  · simp only [getMapsStep]
    split <;> exact h
  · simp only [getMapsStep]
    split
    · rename_i hopt
      have hlen : 2 ≤ (a :: b :: rest).length := by
        simp only [List.length_cons]
        omega
      have hpk : ¬ parentOf (a :: b :: rest) = k := fun hk =>
        hw ⟨hlen, hopt, Or.inl hk⟩
      have hhk : ¬ replaceUnderscores (parentOf (a :: b :: rest)) = k := fun hk =>
        hw ⟨hlen, hopt, Or.inr hk⟩
      rw [lookupStr_mapAdd_ne _ _ _ _ _ hhk, lookupStr_mapAdd_ne _ _ _ _ _ hpk]
      exact h
    · exact h

/-- An iteration that does not write subcommands key `k` leaves `k`
absent. -/
theorem getMapsStep_subcommands_not_written {name : String} {cmd : List String}
    {k : String} (hw : ¬ writesSubcommandsKey name cmd k) (dflt : List String)
    (m : Maps) (h : lookupStr m.subcommands_map k = none) :
    lookupStr (getMapsStep name dflt m cmd).subcommands_map k = none := by
  rcases cmd with _ | ⟨a, _ | ⟨b, rest⟩⟩
  · exact h
  · simp only [getMapsStep]
    split
    · exact h
    · rename_i hopt
      have hno : ¬ name = k := fun hk =>
        hw (Or.inl ⟨rfl, by simpa using hopt, hk⟩)
      rw [lookupStr_mapAdd_ne _ _ _ _ _ hno]
      exact h
  · simp only [getMapsStep]
    split
    · exact h
    · rename_i hopt
      have hlen : 2 ≤ (a :: b :: rest).length := by
        simp only [List.length_cons]
        omega
      have hopt' : _IsOption (tailOf (a :: b :: rest)) = false := by
        simpa using hopt
      have hpk : ¬ parentOf (a :: b :: rest) = k := fun hk =>
        hw (Or.inr ⟨hlen, hopt', Or.inl hk⟩)
      have hhk : ¬ replaceUnderscores (parentOf (a :: b :: rest)) = k := fun hk =>
        hw (Or.inr ⟨hlen, hopt', Or.inr hk⟩)
      rw [lookupStr_mapAdd_ne _ _ _ _ _ hhk, lookupStr_mapAdd_ne _ _ _ _ _ hpk]
      exact h

/-- C7: a command key `k` that no input path ever writes is absent from
both produced maps, so `options_map[k]` reads as (a fresh copy of) the
default options and `subcommands_map[k]` reads as the empty set. -/
theorem c7_default_option_inheritance (name : String)
    (commands : List (List String)) (dflt : List String) (k : String)
    (ho : ∀ cmd ∈ commands, ¬ writesOptionsKey cmd k)
    (hs : ∀ cmd ∈ commands, ¬ writesSubcommandsKey name cmd k) :
    mapGet dflt (_GetMaps name commands dflt).options_map k = dflt ∧
    mapGet [] (_GetMaps name commands dflt).subcommands_map k = [] := by
  have main : ∀ (l : List (List String)) (m : Maps),
      (∀ cmd ∈ l, ¬ writesOptionsKey cmd k) →
      (∀ cmd ∈ l, ¬ writesSubcommandsKey name cmd k) →
      lookupStr m.options_map k = none →
      lookupStr m.subcommands_map k = none →
      lookupStr ((l.foldl (getMapsStep name dflt) m)).options_map k = none ∧
      lookupStr ((l.foldl (getMapsStep name dflt) m)).subcommands_map k = none := by
    intro l
    induction l with
    | nil => exact fun m _ _ h1 h2 => ⟨h1, h2⟩
    | cons c t ih =>
      intro m hol hsl h1 h2
      simp only [List.foldl_cons]
      exact ih (getMapsStep name dflt m c)
        (fun cmd hc => hol cmd (List.mem_cons_of_mem _ hc))
        (fun cmd hc => hsl cmd (List.mem_cons_of_mem _ hc))
        (getMapsStep_options_not_written (hol c (List.mem_cons_self _ _)) name dflt m h1)
        (getMapsStep_subcommands_not_written (hsl c (List.mem_cons_self _ _)) dflt m h2)
  obtain ⟨h1, h2⟩ := main commands
    { global_options := dflt, options_map := [], subcommands_map := [] }
    ho hs rfl rfl
  unfold _GetMaps
  constructor
  · unfold mapGet
    rw [h1]
    rfl
  · unfold mapGet
    rw [h2]
    rfl

/-- Witness for C7 on the round-trip example: `"stop"` is never written
as a key, so `options_map["stop"]` is the default set and
`subcommands_map["stop"]` is empty. -/
theorem c7_default_option_inheritance_witness :
    mapGet ["--quiet"]
      (_GetMaps "mytool" [["run"], ["run", "--verbose"], ["stop"]]
        ["--quiet"]).options_map "stop" = ["--quiet"] ∧
    mapGet []
      (_GetMaps "mytool" [["run"], ["run", "--verbose"], ["stop"]]
        ["--quiet"]).subcommands_map "stop" = [] :=
  c7_default_option_inheritance "mytool" [["run"], ["run", "--verbose"], ["stop"]]
    ["--quiet"] "stop" (by decide) (by decide)

set_option maxRecDepth 40000 in
/-- C1: the round-trip scenario.  For root name `"mytool"`, a component
exposing methods `run(verbose)` and `stop()`, and default options
`{"--quiet"}`: the index satisfies
`SubcommandsMap["mytool"] ⊇ {"run", "stop"}`,
`OptionsMap["run"] ⊇ {"--verbose", "--quiet"}` and
`OptionsMap["stop"] ⊇ {"--quiet"}`; the generated bash script contains a
`run)` case branch assigning `opts="--quiet --verbose ${GLOBAL_OPTIONS}"`
(the sorted listing of the flag set); and the generated fish script
contains exactly one `complete -c mytool ... -l verbose` line and exactly
one `... -l quiet` line conditioned on command `run`. -/
theorem c1_round_trip :
    ("run" ∈ mapGet []
      (_GetMaps "mytool" (_Commands mytoolGraph mytoolComponent 3)
        ["--quiet"]).subcommands_map "mytool" ∧
     "stop" ∈ mapGet []
      (_GetMaps "mytool" (_Commands mytoolGraph mytoolComponent 3)
        ["--quiet"]).subcommands_map "mytool") ∧
    ("--verbose" ∈ mapGet ["--quiet"]
      (_GetMaps "mytool" (_Commands mytoolGraph mytoolComponent 3)
        ["--quiet"]).options_map "run" ∧
     "--quiet" ∈ mapGet ["--quiet"]
      (_GetMaps "mytool" (_Commands mytoolGraph mytoolComponent 3)
        ["--quiet"]).options_map "run") ∧
    "--quiet" ∈ mapGet ["--quiet"]
      (_GetMaps "mytool" (_Commands mytoolGraph mytoolComponent 3)
        ["--quiet"]).options_map "stop" ∧
    strContains (Script "mytool" mytoolGraph mytoolComponent (some ["--quiet"]) "bash")
      bashRunBranch = true ∧
    countSub (Script "mytool" mytoolGraph mytoolComponent (some ["--quiet"]) "fish")
      (fishRunVerboseLine ++ "\n") = 1 ∧
    countSub (Script "mytool" mytoolGraph mytoolComponent (some ["--quiet"]) "fish")
      (fishRunQuietLine ++ "\n") = 1 := by
  decide

theorem prefClosed_nil : PrefClosed [] := by
  intro l1 p l2 heq hlen
  simp at heq

/-- A sequence of one-token paths is vacuously closed under immediate
prefixes. -/
theorem prefClosed_of_singletons {L : List (List String)}
    (h : ∀ p ∈ L, p.length = 1) : PrefClosed L := by
  intro l1 p l2 heq hlen
  have hp : p ∈ L := by
    rw [heq]
    exact List.mem_append_right _ (List.mem_cons_self _ _)
  have := h p hp
  omega

/-- Closure of `PrefClosed` under concatenation: a later occurrence keeps
all its earlier occurrences in front of it. -/
theorem prefClosed_append {A B : List (List String)}
    (hA : PrefClosed A) (hB : PrefClosed B) : PrefClosed (A ++ B) := by
  intro l1 p l2 heq hlen
  rcases List.append_eq_append_iff.mp heq with ⟨a, hc, hd⟩ | ⟨c, hc, hd⟩
  · subst hc
    exact List.mem_append_right A (hB a p l2 hd hlen)
  · rcases c with _ | ⟨q, c'⟩
    · have hB0 : B = [] ++ p :: l2 := by
        simpa using hd.symm
      have h0 := hB [] p l2 hB0 hlen
      simp at h0
    · injection hd with hpq hl2
      subst hpq
      exact hA l1 p c' hc hlen

/-- The per-member segment `[mn] :: (mn :: ·) <$> M` is closed under
immediate prefixes whenever `M` is: a length-2 path's prefix is the
leading one-token path `[mn]`, a longer path's prefix maps the
recursively-earlier prefix. -/
theorem prefClosed_cons_map (mn : String) (M : List (List String))
    (hM : PrefClosed M) :
    PrefClosed ([mn] :: M.map (fun command => mn :: command)) := by
  intro l1 p l2 heq hlen
  cases l1 with
  | nil =>
    simp only [List.nil_append] at heq
    injection heq with hp hrest
    rw [← hp] at hlen
    simp at hlen
  | cons q l1' =>
    simp only [List.cons_append] at heq
    injection heq with hq hrest
    obtain ⟨M1, M2', hMsplit, hmap1, hmap2⟩ := List.map_eq_append_iff.mp hrest
    obtain ⟨c, M2, hM2', hfc, hmap2'⟩ := List.map_eq_cons_iff.mp hmap2
    subst hM2'
    rcases c with _ | ⟨x, c'⟩
    · rw [← hfc] at hlen
      simp at hlen
    · rcases c' with _ | ⟨y, c''⟩
      · rw [← hfc]
        rw [show (mn :: [x]).dropLast = [mn] from rfl]
        rw [← hq]
        exact List.mem_cons_self _ _
      · have hdl : p.dropLast = mn :: (x :: y :: c'').dropLast := by
          rw [← hfc]
          exact List.dropLast_cons_of_ne_nil (by simp)
        have hmem : (x :: y :: c'').dropLast ∈ M1 :=
          hM M1 (x :: y :: c'') M2 hMsplit (by simp)
        rw [hdl]
        refine List.mem_cons_of_mem _ ?_
        rw [← hmap1]
        exact List.mem_map_of_mem _ hmem

theorem prefClosed_flatMap {f : (MName × Nat) → List (List String)}
    (members : List (MName × Nat)) (h : ∀ q ∈ members, PrefClosed (f q)) :
    PrefClosed (members.flatMap f) := by
  induction members with
  | nil =>
    simp only [List.flatMap_nil]
    exact prefClosed_nil
  | cons q t ih =>
    simp only [List.flatMap_cons]
    exact prefClosed_append (h q (List.mem_cons_self _ _))
      (ih (fun r hr => h r (List.mem_cons_of_mem _ hr)))

theorem prefClosed_memberCommands (g : Graph) (rec : Node → List (List String))
    (q : MName × Nat) (h : PrefClosed (rec (g q.2))) :
    PrefClosed (memberCommands g rec q) := by
  unfold memberCommands
  exact prefClosed_cons_map _ _ h

/-- The enumerator's output is closed under immediate prefixes at every
depth. -/
theorem prefClosed_commands (g : Graph) :
    ∀ (depth : Nat) (c : Node), PrefClosed (_Commands g c depth) := by
  intro depth
  induction depth with
  | zero =>
    intro c
    rw [_Commands_zero]
    exact prefClosed_of_singletons (fun p hp => length_of_mem_commandsHead hp)
  | succ d ih =>
    intro c
    by_cases hr : c.kind = Kind.routine
    · rw [_Commands_routine g c (d + 1) hr]
      exact prefClosed_of_singletons (fun p hp => length_of_mem_commandsHead hp)
    · rw [_Commands_succ g c d hr]
      exact prefClosed_append
        (prefClosed_of_singletons (fun p hp => length_of_mem_commandsHead hp))
        (prefClosed_flatMap _
          (fun q _ => prefClosed_memberCommands g _ q (ih (g q.2))))

/-- C10: in every enumeration, every occurrence of a command path of
length ≥ 2 is preceded, strictly earlier in the same enumeration, by its
immediate prefix (the path without its last token): each member's
one-token path precedes every extension of it. -/
theorem c10_immediate_path_prefixes_yielded_earlier (g : Graph) (c : Node)
    (depth : Nat) (l1 : List (List String)) (p : List String)
    (l2 : List (List String)) (heq : _Commands g c depth = l1 ++ p :: l2)
    (hlen : 2 ≤ p.length) : p.dropLast ∈ l1 :=
  prefClosed_commands g depth c l1 p l2 heq hlen

/-- Witness for C10 on the round-trip component: `["run", "--verbose"]`
occurs after its immediate prefix `["run"]`. -/
theorem c10_immediate_path_prefixes_yielded_earlier_witness :
    (_Commands mytoolGraph mytoolComponent 3 =
      [["run"]] ++ ["run", "--verbose"] :: [["stop"]]) ∧
    List.dropLast ["run", "--verbose"] ∈ [["run"]] :=
  ⟨by decide,
   c10_immediate_path_prefixes_yielded_earlier mytoolGraph mytoolComponent 3
     [["run"]] ["run", "--verbose"] [["stop"]] (by decide) (by decide)⟩
